import Mathlib

/-
  Verification development for the tinyml-accelerator repository.

  The repository ships two Verilator testbenches:
    src/testbenches/tb_tensor_process_elem.cpp
    src/testbenches/tb_systolic_tensor_array.cpp
  The RTL modules they drive (tensor_process_elem, systolic_tensor_array) are
  not part of src/, so the processing-element and array transition functions
  below are modelled from the specification (spec.md sections 3, 4.1, 4.2, 7);
  the reference dot-product functions are embedded from the testbench sources.

  Machine integers are modelled as Int with explicit wrapping at the declared
  width: wrap32 reduces a value into the 32-bit signed range, which is the
  behavior the spec prescribes for the wide accumulator when its width is
  exceeded ("must wrap consistently with the declared integer width").
-/

namespace TinyML

/-- Reduce an integer into the 32-bit signed range
`[-2147483648, 2147483647]`, as a 32-bit register would. -/
def wrap32 (x : Int) : Int := (x + 2147483648) % 4294967296 - 2147483648

/-- The value `x` fits in a 32-bit signed integer. -/
def inRange32 (x : Int) : Prop := -2147483648 ≤ x ∧ x ≤ 2147483647

instance (x : Int) : Decidable (inRange32 x) := by
  unfold inRange32; infer_instance

/-- Exact mathematical dot product over VECTOR_WIDTH = 4 lanes
(spec section 4.1: sum over all lanes of the product of corresponding
elements, computed in the wide integer domain). -/
def dot (a b : Fin 4 → Int) : Int := ∑ i, a i * b i

/-- Per-edge inputs of one processing element (spec section 4.1). -/
structure PEInput where
  left_in : Fin 4 → Int
  top_in : Fin 4 → Int
  sum_in : Int
  load_sum : Bool
  reset : Bool

/-- Post-edge state of one processing element: the accumulator register and
the registered passthrough outputs (spec sections 4.1, 3). -/
structure PEState where
  acc : Int
  right_out : Fin 4 → Int
  bottom_out : Fin 4 → Int

/-- Modelled from the spec: the accumulator update rule of the
tensor_process_elem RTL, which is not under src/ (spec section 4.1:
reset dominates and clears to 0; else load_sum adopts sum_in; else the
accumulator gains the dot product of the operand vectors; the register
holds a 32-bit signed value). -/
def accStep (acc : Int) (inp : PEInput) : Int :=
  if inp.reset then 0
  else if inp.load_sum then wrap32 inp.sum_in
  else wrap32 (acc + dot inp.left_in inp.top_in)

/-- Modelled from the spec: one full clock edge of the tensor_process_elem
RTL, which is not under src/ (spec section 4.1: accumulator update plus the
unconditional operand passthrough right_out = left_in, bottom_out = top_in). -/
def peStep (s : PEState) (inp : PEInput) : PEState :=
  { acc := accStep s.acc inp
    right_out := inp.left_in
    bottom_out := inp.top_in }

/-- Observable output of a PE: `sum_out` is the current accumulator value
(spec section 4.1). -/
def PEState.sum_out (s : PEState) : Int := s.acc

/-- State of the N = 4 systolic array: the grid of PE accumulators
(spec section 4.2). -/
def ArrState : Type := Fin 4 → Fin 4 → Int

/-- Per-edge inputs of the array (spec section 3 array-level inputs, with the
per-cell `sum_in` grid of spec section 4.2). -/
structure ArrInput where
  A_in : Fin 4 → Fin 4 → Int
  B_in : Fin 4 → Fin 4 → Int
  load_sum : Fin 4 → Fin 4 → Bool
  sum_in : Fin 4 → Fin 4 → Int
  reset : Bool

/-- Modelled from the spec: one clock edge of the systolic_tensor_array RTL,
which is not under src/ (spec section 4.2, broadcast wiring policy: PE(i,j)
receives left_in = A_in[i] and top_in = B_in[j], reset and the per-cell
load_sum/sum_in are applied uniformly, and every PE updates per section 4.1
from the pre-edge state). -/
def arrStep (st : ArrState) (inp : ArrInput) : ArrState :=
  fun i j =>
    accStep (st i j)
      { left_in := inp.A_in i, top_in := inp.B_in j,
        sum_in := inp.sum_in i j, load_sum := inp.load_sum i j,
        reset := inp.reset }

/-- The aggregate output matrix: entry (i,j) holds the accumulator of
PE(i,j) (spec sections 3 and 4.2). -/
def C_out (st : ArrState) : Fin 4 → Fin 4 → Int := st

/-- Run `k` consecutive edges of the array with a fixed input vector. -/
def arrRun (inp : ArrInput) : Nat → ArrState → ArrState
  | 0, st => st
  | k + 1, st => arrRun inp k (arrStep st inp)

/-- Operand matrix A of the array testbench
(src/testbenches/tb_systolic_tensor_array.cpp, lines 57-62). -/
def Atb : Fin 4 → Fin 4 → Int :=
  ![![1, 2, 3, 4], ![5, 6, 7, 8], ![9, 10, 11, 12], ![13, 14, 15, 16]]

/-- Operand matrix B of the array testbench
(src/testbenches/tb_systolic_tensor_array.cpp, lines 63-68). -/
def Btb : Fin 4 → Fin 4 → Int :=
  ![![16, 15, 14, 13], ![12, 11, 10, 9], ![8, 7, 6, 5], ![4, 3, 2, 1]]

/-- The all-zero accumulator grid (post-reset / post-construction state). -/
def zeroSt : ArrState := fun _ _ => 0

/-- Array input for the dot-product scenario: the testbench operand matrices,
all load_sum entries false, reset deasserted. -/
def dotInp : ArrInput :=
  { A_in := Atb, B_in := Btb, load_sum := fun _ _ => false,
    sum_in := fun _ _ => 0, reset := false }

/-- Run `k` consecutive PE accumulate edges (reset and load_sum deasserted)
with the operand vectors held at `a` and `b`. -/
def macRun (a b : Fin 4 → Int) : Nat → Int → Int
  | 0, v => v
  | k + 1, v =>
      macRun a b k
        (accStep v { left_in := a, top_in := b, sum_in := 0,
                     load_sum := false, reset := false })

/-- A non-reset PE edge, abstracted to the data that matters for the
accumulator: either a load of a supplied sum_in, or an accumulate with a
pair of operand vectors. -/
inductive PEOp where
  | load (s : Int)
  | mac (a b : Fin 4 → Int)

/-- The PE inputs realizing an abstract operation (reset deasserted). -/
def PEOp.toInput : PEOp → PEInput
  | .load s => { left_in := fun _ => 0, top_in := fun _ => 0, sum_in := s,
                 load_sum := true, reset := false }
  | .mac a b => { left_in := a, top_in := b, sum_in := 0,
                  load_sum := false, reset := false }

/-- Run a sequence of non-reset edges through the modelled PE accumulator. -/
def runOps (v : Int) : List PEOp → Int
  | [] => v
  | op :: ops => runOps (accStep v op.toInput) ops

/-- The exact mathematical effect of one operation: a load replaces the
value with the supplied sum_in, an accumulate adds the exact dot product. -/
def exactStep (v : Int) : PEOp → Int
  | .load s => s
  | .mac a b => v + dot a b

/-- Exact mathematical semantics of a sequence of operations. -/
def runOpsExact (v : Int) : List PEOp → Int
  | [] => v
  | op :: ops => runOpsExact (exactStep v op) ops

/-- Every value the exact semantics passes through, the start included. -/
def exactTrace (v : Int) : List PEOp → List Int
  | [] => [v]
  | op :: ops => v :: exactTrace (exactStep v op) ops

end TinyML

namespace TinyML.TBProcessElem

/-- Embedded from src/testbenches/tb_tensor_process_elem.cpp, lines 25-30:
`acc` starts at 0 and the loop adds `static_cast<int32_t>(a[i]) *
static_cast<int32_t>(b[i])` for i = 0..3; the cast sign-extends an 8-bit
lane, which preserves its value, and each addition lands in a 32-bit signed
accumulator, hence the wrap32 per step. -/
def expected_dot (a b : Fin 4 → Int) : Int :=
  List.foldl (fun acc i => wrap32 (acc + a i * b i)) 0 [0, 1, 2, 3]

end TinyML.TBProcessElem

namespace TinyML.TBSystolicArray

/-- Embedded from src/testbenches/tb_systolic_tensor_array.cpp, lines 45-51:
`result` starts at 0 and the loop adds `A[i] * B[i]` for i = 0..3; the int8_t
lanes are promoted to 32-bit int, multiplied there, and each addition lands
in the 32-bit signed `result`, hence the wrap32 per step. -/
def expected_dot (a b : Fin 4 → Int) : Int :=
  List.foldl (fun result i => wrap32 (result + a i * b i)) 0 [0, 1, 2, 3]

end TinyML.TBSystolicArray

namespace TinyML

/-- One instance of the array model as constructed (spec section 6:
Construct(N, VECTOR_WIDTH)). -/
structure ArrayConfig where
  n : Int
  vector_width : Int

/-- Modelled from the spec: construction-time validation of the
systolic_tensor_array, whose constructor is not under src/ (spec section 7:
construction with non-positive N or VECTOR_WIDTH fails with an
invalid-configuration condition at construction time, rather than producing
a usable instance). -/
def construct (n w : Int) : Except String ArrayConfig :=
  if n ≤ 0 ∨ w ≤ 0 then Except.error "invalid-configuration"
  else Except.ok { n := n, vector_width := w }

end TinyML

namespace TinyML

lemma wrap32_eq_self {x : Int} (h : inRange32 x) : wrap32 x = x := by
  obtain ⟨h1, h2⟩ := h
  unfold wrap32
  omega

lemma macRun_exact (a b : Fin 4 → Int) (k : Nat) (v0 : Int)
    (h : ∀ i : Nat, i ≤ k → inRange32 (v0 + (i : Int) * dot a b)) :
    macRun a b k v0 = v0 + (k : Int) * dot a b := by
  induction k generalizing v0 with
  | zero => simpa using (wrap32_eq_self (by simpa using h 0 (by omega))).symm ▸ rfl
  | succ k ih =>
      have h1 : inRange32 (v0 + dot a b) := by
        have := h 1 (by omega)
        simpa using this
      have step :
          accStep v0 { left_in := a, top_in := b, sum_in := 0,
                       load_sum := false, reset := false }
            = v0 + dot a b := by
        simp only [accStep, Bool.false_eq_true, if_false]
        exact wrap32_eq_self h1
      have hrest : ∀ i : Nat, i ≤ k →
          inRange32 ((v0 + dot a b) + (i : Int) * dot a b) := by
        intro i hi
        have := h (i + 1) (by omega)
        have e : v0 + ((i : Int) + 1) * dot a b
            = (v0 + dot a b) + (i : Int) * dot a b := by ring
        push_cast at this
        rw [e] at this
        exact this
      calc macRun a b (k + 1) v0
          = macRun a b k (v0 + dot a b) := by rw [macRun, step]
        _ = (v0 + dot a b) + (k : Int) * dot a b := ih (v0 + dot a b) hrest
        _ = v0 + ((k : Nat) + 1 : Int) * dot a b := by ring
        _ = v0 + ((k + 1 : Nat) : Int) * dot a b := by push_cast; ring

/-- C6: starting from accumulator value v0 with fixed operands a and b, k
consecutive accumulate edges (reset and load_sum deasserted) yield
sum_out = v0 + k * dot(a, b), provided every intermediate value fits the
32-bit accumulator. -/
theorem accumulate_linearity (v0 : Int) (a b : Fin 4 → Int) (k : Nat)
    (h : ∀ i : Nat, i ≤ k → inRange32 (v0 + (i : Int) * dot a b)) :
    macRun a b k v0 = v0 + (k : Int) * dot a b :=
  macRun_exact a b k v0 h

theorem accumulate_linearity_witness :
    macRun ![1, 2, 3, 4] ![5, 6, 7, 8] 2 100
      = 100 + (2 : Int) * dot ![1, 2, 3, 4] ![5, 6, 7, 8] := by
  apply accumulate_linearity
  intro i hi
  have hd : dot ![1, 2, 3, 4] ![5, 6, 7, 8] = 70 := by decide
  rw [hd]
  constructor <;> omega

lemma self_mem_exactTrace (v : Int) (ops : List PEOp) :
    v ∈ exactTrace v ops := by
  cases ops <;> simp [exactTrace]

lemma runOps_eq_exact (ops : List PEOp) (v : Int)
    (h : ∀ x ∈ exactTrace v ops, inRange32 x) :
    runOps v ops = runOpsExact v ops := by
  induction ops generalizing v with
  | nil => rfl
  | cons op ops ih =>
      have hnext : inRange32 (exactStep v op) := by
        apply h
        simp only [exactTrace, List.mem_cons]
        exact Or.inr (self_mem_exactTrace _ ops)
      have hstep : accStep v op.toInput = exactStep v op := by
        cases op with
        | load s =>
            simp only [accStep, PEOp.toInput, if_true, exactStep]
            exact wrap32_eq_self (by simpa [exactStep] using hnext)
        | mac a b =>
            simp only [accStep, PEOp.toInput, Bool.false_eq_true, if_false,
              exactStep]
            exact wrap32_eq_self (by simpa [exactStep] using hnext)
      show runOps (accStep v op.toInput) ops = runOpsExact (exactStep v op) ops
      rw [hstep]
      apply ih
      intro x hx
      apply h
      simp only [exactTrace, List.mem_cons]
      exact Or.inr hx

lemma arrRun_dotInp_entry (k : Nat) (st : ArrState) (i j : Fin 4) :
    arrRun dotInp k st i j = macRun (Atb i) (Btb j) k (st i j) := by
  induction k generalizing st with
  | zero => rfl
  | succ k ih =>
      show arrRun dotInp k (arrStep st dotInp) i j = _
      rw [ih]
      rfl

lemma dot_tb_bounds (i j : Fin 4) :
    0 ≤ dot (Atb i) (Btb j) ∧ dot (Atb i) (Btb j) ≤ 836 := by
  fin_cases i <;> fin_cases j <;> decide

/-- C2: starting from the state reached by the single-cycle dot-product
scenario, k further edges with the same operands, reset deasserted and all
load_sum entries false re-add the dot products, so `C_out` equals (k+1)
times the base dot-product matrix; the bound keeps every entry inside the
32-bit accumulator (each base entry lies in [0, 836]). -/
theorem repeated_edges_scale (k : Nat)
    (h : ((k : Int) + 1) * 836 ≤ 2147483647) :
    C_out (arrRun dotInp k (arrStep zeroSt dotInp))
      = fun i j => ((k : Int) + 1) * dot (Atb i) (Btb j) := by
  funext i j
  obtain ⟨hd0, hd1⟩ := dot_tb_bounds i j
  have hfirst : arrStep zeroSt dotInp i j = dot (Atb i) (Btb j) := by
    simp only [arrStep, accStep, dotInp, zeroSt, Bool.false_eq_true, if_false,
      zero_add]
    exact wrap32_eq_self ⟨by omega, by omega⟩
  have hmac : ∀ m : Nat, m ≤ k →
      inRange32 (dot (Atb i) (Btb j) + (m : Int) * dot (Atb i) (Btb j)) := by
    intro m hm
    have e : dot (Atb i) (Btb j) + (m : Int) * dot (Atb i) (Btb j)
        = ((m : Int) + 1) * dot (Atb i) (Btb j) := by ring
    have hub : ((m : Int) + 1) * dot (Atb i) (Btb j)
        ≤ ((k : Int) + 1) * 836 := by
      apply mul_le_mul _ hd1 hd0 _
      · exact_mod_cast by omega
      · positivity
    have hlb : 0 ≤ ((m : Int) + 1) * dot (Atb i) (Btb j) := by positivity
    rw [e]
    exact ⟨by linarith, by linarith⟩
  show arrRun dotInp k (arrStep zeroSt dotInp) i j = _
  rw [arrRun_dotInp_entry, hfirst, macRun_exact _ _ _ _ hmac]
  ring

theorem repeated_edges_scale_witness :
    (((3 : Nat) : Int) + 1) * 836 ≤ 2147483647 ∧
    C_out (arrRun dotInp 3 (arrStep zeroSt dotInp))
      = fun i j => (((3 : Nat) : Int) + 1) * dot (Atb i) (Btb j) :=
  ⟨by norm_num, repeated_edges_scale 3 (by norm_num)⟩

/-- C5: one edge with load_sum asserted and reset deasserted leaves the PE
with sum_out exactly the supplied 32-bit sum_in, for all operand vectors and
all prior accumulator state; the dot product has no effect. -/
theorem load_exactness (st : PEState) (s : Int) (a b : Fin 4 → Int)
    (hs : inRange32 s) :
    (peStep st { left_in := a, top_in := b, sum_in := s,
                 load_sum := true, reset := false }).sum_out = s := by
  simp only [peStep, PEState.sum_out, accStep, if_true]
  simp [wrap32_eq_self hs]

theorem load_exactness_witness :
    inRange32 100 ∧
    (peStep { acc := 7, right_out := fun _ => 0, bottom_out := fun _ => 0 }
        { left_in := ![1, 2, 3, 4], top_in := ![5, 6, 7, 8],
          sum_in := 100, load_sum := true, reset := false }).sum_out = 100 :=
  ⟨by decide,
   load_exactness { acc := 7, right_out := fun _ => 0, bottom_out := fun _ => 0 }
     100 ![1, 2, 3, 4] ![5, 6, 7, 8] (by decide)⟩

/-- C4: starting from the post-reset value 0, after any sequence of non-reset
edges the accumulator equals the exact mathematical result of the load and
accumulate operations applied in order, as long as every value the exact
semantics passes through fits the 32-bit signed accumulator (no truncation
within the declared width). -/
theorem accumulator_exactness (ops : List PEOp)
    (h : ∀ x ∈ exactTrace 0 ops, inRange32 x) :
    runOps 0 ops = runOpsExact 0 ops :=
  runOps_eq_exact ops 0 h

theorem accumulator_exactness_witness :
    (∀ x ∈ exactTrace 0
        [PEOp.load 100, PEOp.mac ![1, 2, 3, 4] ![5, 6, 7, 8],
         PEOp.mac ![1, 2, 3, 4] ![5, 6, 7, 8]], inRange32 x) ∧
    runOps 0
        [PEOp.load 100, PEOp.mac ![1, 2, 3, 4] ![5, 6, 7, 8],
         PEOp.mac ![1, 2, 3, 4] ![5, 6, 7, 8]]
      = runOpsExact 0
        [PEOp.load 100, PEOp.mac ![1, 2, 3, 4] ![5, 6, 7, 8],
         PEOp.mac ![1, 2, 3, 4] ![5, 6, 7, 8]] :=
  ⟨by decide, accumulator_exactness _ (by decide)⟩

/-- C7: on every PE edge the passthrough outputs equal the operand inputs,
for all values of reset and load_sum and independently of the accumulator. -/
theorem passthrough_invariance (s : PEState) (inp : PEInput) :
    (peStep s inp).right_out = inp.left_in ∧
    (peStep s inp).bottom_out = inp.top_in :=
  ⟨rfl, rfl⟩

lemma int8_mul_bounds {x y : Int} (hx : -128 ≤ x ∧ x ≤ 127)
    (hy : -128 ≤ y ∧ y ≤ 127) : -16384 ≤ x * y ∧ x * y ≤ 16384 := by
  obtain ⟨hx1, hx2⟩ := hx
  obtain ⟨hy1, hy2⟩ := hy
  constructor <;> nlinarith

/-- C8: the reference dot product of the PE testbench equals the exact
mathematical sum of lane products for all 8-bit signed inputs, and that sum
lies within [-65536, 65536], far inside the 32-bit range, so no wraparound
occurs. -/
theorem expected_dot_exact (a b : Fin 4 → Int)
    (ha : ∀ i, -128 ≤ a i ∧ a i ≤ 127)
    (hb : ∀ i, -128 ≤ b i ∧ b i ≤ 127) :
    TBProcessElem.expected_dot a b = dot a b ∧
    -65536 ≤ dot a b ∧ dot a b ≤ 65536 := by
  have p0 := int8_mul_bounds (ha 0) (hb 0)
  have p1 := int8_mul_bounds (ha 1) (hb 1)
  have p2 := int8_mul_bounds (ha 2) (hb 2)
  have p3 := int8_mul_bounds (ha 3) (hb 3)
  have hdot : dot a b = a 0 * b 0 + a 1 * b 1 + a 2 * b 2 + a 3 * b 3 := by
    simp [dot, Fin.sum_univ_four]
  have e : TBProcessElem.expected_dot a b
      = wrap32 (wrap32 (wrap32 (wrap32 (0 + a 0 * b 0) + a 1 * b 1)
          + a 2 * b 2) + a 3 * b 3) := rfl
  have w0 : wrap32 (0 + a 0 * b 0) = 0 + a 0 * b 0 :=
    wrap32_eq_self ⟨by linarith, by linarith⟩
  have w1 : wrap32 (0 + a 0 * b 0 + a 1 * b 1) = 0 + a 0 * b 0 + a 1 * b 1 :=
    wrap32_eq_self ⟨by linarith, by linarith⟩
  have w2 : wrap32 (0 + a 0 * b 0 + a 1 * b 1 + a 2 * b 2)
      = 0 + a 0 * b 0 + a 1 * b 1 + a 2 * b 2 :=
    wrap32_eq_self ⟨by linarith, by linarith⟩
  have w3 : wrap32 (0 + a 0 * b 0 + a 1 * b 1 + a 2 * b 2 + a 3 * b 3)
      = 0 + a 0 * b 0 + a 1 * b 1 + a 2 * b 2 + a 3 * b 3 :=
    wrap32_eq_self ⟨by linarith, by linarith⟩
  refine ⟨?_, ?_, ?_⟩
  · rw [e, w0, w1, w2, w3, hdot]
    ring
  · rw [hdot]
    linarith
  · rw [hdot]
    linarith

theorem expected_dot_exact_witness :
    (∀ i : Fin 4, -128 ≤ (![1, 2, 3, 4] : Fin 4 → Int) i ∧
        (![1, 2, 3, 4] : Fin 4 → Int) i ≤ 127) ∧
    (∀ i : Fin 4, -128 ≤ (![5, 6, 7, 8] : Fin 4 → Int) i ∧
        (![5, 6, 7, 8] : Fin 4 → Int) i ≤ 127) ∧
    (TBProcessElem.expected_dot ![1, 2, 3, 4] ![5, 6, 7, 8]
        = dot ![1, 2, 3, 4] ![5, 6, 7, 8] ∧
      -65536 ≤ dot ![1, 2, 3, 4] ![5, 6, 7, 8] ∧
      dot ![1, 2, 3, 4] ![5, 6, 7, 8] ≤ 65536) :=
  ⟨by decide, by decide,
   expected_dot_exact ![1, 2, 3, 4] ![5, 6, 7, 8] (by decide) (by decide)⟩

/-- C10: the two reference dot-product functions agree on every pair of
4-lane 8-bit signed input vectors: the explicit sign-extending cast in the
PE testbench version and the integer promotion in the array testbench
version both preserve the lane values, so the two embeddings compute the
same chain of 32-bit additions. -/
theorem expected_dot_agreement (a b : Fin 4 → Int)
    (_ha : ∀ i, -128 ≤ a i ∧ a i ≤ 127)
    (_hb : ∀ i, -128 ≤ b i ∧ b i ≤ 127) :
    TBProcessElem.expected_dot a b = TBSystolicArray.expected_dot a b := rfl

theorem expected_dot_agreement_witness :
    (∀ i : Fin 4, -128 ≤ (![120, -128, 127, -1] : Fin 4 → Int) i ∧
        (![120, -128, 127, -1] : Fin 4 → Int) i ≤ 127) ∧
    (∀ i : Fin 4, -128 ≤ (![-128, -128, 127, 5] : Fin 4 → Int) i ∧
        (![-128, -128, 127, 5] : Fin 4 → Int) i ≤ 127) ∧
    TBProcessElem.expected_dot ![120, -128, 127, -1] ![-128, -128, 127, 5]
      = TBSystolicArray.expected_dot ![120, -128, 127, -1]
          ![-128, -128, 127, 5] :=
  ⟨by decide, by decide,
   expected_dot_agreement ![120, -128, 127, -1] ![-128, -128, 127, 5]
     (by decide) (by decide)⟩

/-- C9: constructing an array with a non-positive N or a non-positive
VECTOR_WIDTH fails at construction time with the invalid-configuration
condition rather than producing a usable instance. -/
theorem construct_rejects_nonpositive (n w : Int) (h : n ≤ 0 ∨ w ≤ 0) :
    construct n w = Except.error "invalid-configuration" := by
  simp only [construct]
  rw [if_pos h]

theorem construct_rejects_nonpositive_witness :
    ((0 : Int) ≤ 0 ∨ (4 : Int) ≤ 0) ∧
    construct 0 4 = Except.error "invalid-configuration" :=
  ⟨by decide, construct_rejects_nonpositive 0 4 (by decide)⟩

/-- C1: one edge with reset asserted clears every accumulator, so `C_out` is
the 4x4 zero matrix, for every choice of operands, load_sum grid, sum_in grid
and pre-edge accumulator values. -/
theorem reset_clears_array (st : ArrState)
    (A B : Fin 4 → Fin 4 → Int) (load : Fin 4 → Fin 4 → Bool)
    (sIn : Fin 4 → Fin 4 → Int) :
    C_out (arrStep st { A_in := A, B_in := B, load_sum := load,
                        sum_in := sIn, reset := true })
      = fun _ _ => 0 := by
  funext i j
  simp [C_out, arrStep, accStep]

/-- C3: one edge after presenting the testbench operand matrices to an
already-zeroed array with reset deasserted and every load_sum entry false,
`C_out[i][j]` is the dot product of row i of A with row j of B, whatever the
sum_in grid holds; in particular entry (0,0) is 140. -/
theorem single_cycle_dot_product :
    (∀ sIn : Fin 4 → Fin 4 → Int,
      C_out (arrStep zeroSt { A_in := Atb, B_in := Btb,
                              load_sum := fun _ _ => false,
                              sum_in := sIn, reset := false })
        = fun i j => dot (Atb i) (Btb j)) ∧
    dot (Atb 0) (Btb 0) = 140 := by
  constructor
  · intro sIn
    funext i j
    simp only [C_out, arrStep, accStep, Bool.false_eq_true, if_false,
      zeroSt, zero_add]
    have : inRange32 (dot (Atb i) (Btb j)) := by
      fin_cases i <;> fin_cases j <;> decide
    exact wrap32_eq_self this
  · decide

end TinyML
